import Mathlib

/-!
Shallow embedding of `src/circuitpython/cpx/cpgame.py`, a minimal
cooperative event-loop framework providing periodic tasks, one-shot
timers, and debounced button press/release dispatch.

Modelling conventions:
* Python floats (monotonic seconds) are modelled as rationals.
* Handlers are opaque callbacks: they are identified by natural numbers
  and the scheduler records their invocations instead of running them.
* Python dicts are insertion-ordered association lists with unique keys:
  `dictSet` models `d[k] = v` (update in place, append for a new key) and
  `dictDel` models `del d[k]`.
* Iterating a dict while deleting from it follows Python's dict-iteration
  semantics: after the size of the dict changes, the very next step of
  the iterator raises `RuntimeError` ("dictionary changed size during
  iteration"), even when the mutated entry was the last one.
* Python's `min([])` raises `ValueError`; `pymin` returns the
  corresponding error value on an empty list.
-/

deriving instance DecidableEq for Except

namespace CPGame

abbrev Fn := ℕ
abbrev Pin := ℕ

/-- Source constant `DOWN = 1`. -/
def DOWN : ℕ := 1

/-- Source constant `UP = 2`. -/
def UP : ℕ := 2

/-- Runtime errors the loop can raise along the modelled paths. -/
inductive PyError
  | dictChangedSize
  | valueErrorEmptyMin
deriving DecidableEq

/-- Python dict assignment `d[k] = v`: replace in place if the key is
present, append otherwise (insertion order preserved). -/
def dictSet {α : Type} (k : Fn) (v : α) : List (Fn × α) → List (Fn × α)
  | [] => [(k, v)]
  | (k', v') :: rest => if k' = k then (k, v) :: rest else (k', v') :: dictSet k v rest

/-- Python dict deletion `del d[k]` (the key is present at every call
site modelled here, so the `KeyError` path is not represented). -/
def dictDel {α : Type} (k : Fn) : List (Fn × α) → List (Fn × α)
  | [] => []
  | (k', v') :: rest => if k' = k then rest else (k', v') :: dictDel k rest

/-- Keys of an association list are pairwise distinct (the dict
invariant). -/
def keysNodup {α : Type} (l : List (Fn × α)) : Prop := (l.map Prod.fst).Nodup

/-- The module-level scheduler state: `RUNNING`, `INTERVALS` (a handler
maps to its `(interval, last_called)` pair) and `TIMERS` (a handler maps
to its absolute deadline). -/
structure SchedState where
  running : Bool
  intervals : List (Fn × ℚ × ℚ)
  timers : List (Fn × ℚ)
deriving DecidableEq

/-- Initial module state: `RUNNING = True`, empty tables. -/
def initSched : SchedState := ⟨true, [], []⟩

/-- Source `every(interval)` applied to a handler:
`INTERVALS[fn] = (interval, 0)`. -/
def every (interval : ℚ) (fn : Fn) (s : SchedState) : SchedState :=
  { s with intervals := dictSet fn (interval, 0) s.intervals }

/-- Source `tick` decorator: `INTERVALS[fn] = (0, 0)`. -/
def tick (fn : Fn) (s : SchedState) : SchedState := every 0 fn s

/-- Source `at(target, fn)`: `TIMERS[fn] = target`. -/
def at_ (target : ℚ) (fn : Fn) (s : SchedState) : SchedState :=
  { s with timers := dictSet fn target s.timers }

/-- Source `after(target, fn)`: `TIMERS[fn] = time.monotonic() + target`;
the current monotonic time is passed explicitly. -/
def after_ (target : ℚ) (now : ℚ) (fn : Fn) (s : SchedState) : SchedState :=
  at_ (now + target) fn s

/-- Source `stop()`: set `RUNNING = False`. -/
def stop (s : SchedState) : SchedState := { s with running := false }

/-- The `INTERVALS` loop of `start()`: for each entry `(interval,
last_called)` visited in insertion order, if `last_called + interval <=
now` the handler is invoked and the entry becomes `(interval, now)`
(an in-place value update, which Python's dict iteration permits).
Returns the updated table and the handlers fired, in firing order. -/
def fireIntervals (now : ℚ) : List (Fn × ℚ × ℚ) → List (Fn × ℚ × ℚ) × List Fn
  | [] => ([], [])
  | (fn, i, last) :: rest =>
    let p := fireIntervals now rest
    if last + i ≤ now then ((fn, i, now) :: p.1, fn :: p.2)
    else ((fn, i, last) :: p.1, p.2)

/-- Record of one one-shot handler invocation: the handler, the sampled
time passed to it, and the contents of `TIMERS` at the moment of the
call (the entry has already been deleted). -/
structure TInvocation where
  fn : Fn
  now : ℚ
  timersAt : List (Fn × ℚ)
deriving DecidableEq

/-- The `TIMERS` loop of `start()`, iterating the pending entries of the
dict while `table` is the dict's current contents.  A due entry is
deleted (`del TIMERS[fn]`) and its handler invoked; the deletion changed
the dict's size, so the next step of the iterator raises `RuntimeError`
before any further entry is examined. -/
def fireTimersAux (now : ℚ) (table : List (Fn × ℚ)) :
    List (Fn × ℚ) → Except PyError (List (Fn × ℚ)) × List TInvocation
  | [] => (.ok table, [])
  | (fn, target) :: rest =>
    if target ≤ now then
      (.error .dictChangedSize, [⟨fn, now, dictDel fn table⟩])
    else fireTimersAux now table rest

/-- The whole `for fn, target in TIMERS.items()` loop. -/
def fireTimersTop (now : ℚ) (table : List (Fn × ℚ)) :
    Except PyError (List (Fn × ℚ)) × List TInvocation :=
  fireTimersAux now table table

/-- The argument of the `min(...)` call computing `next_target`.  The
stored value of an `INTERVALS` entry is `(interval, last_called)`, but
the comprehension unpacks it as `for last_called, interval in
INTERVALS.values()`, so the summand is literally `value.1 + value.2`. -/
def nextTargetList (intervals : List (Fn × ℚ × ℚ)) (timers : List (Fn × ℚ)) : List ℚ :=
  intervals.map (fun p => p.2.1 + p.2.2) ++ timers.map (fun p => p.2)

/-- Python `min` on a list: `ValueError` when the list is empty. -/
def pymin : List ℚ → Except PyError ℚ
  | [] => .error .valueErrorEmptyMin
  | x :: xs => .ok (xs.foldl min x)

/-- Outcome of one iteration of the outer `while True:` loop of
`start()`: a clean `return 0` after the "No functions registered,
quitting" report, an uncaught exception, or a fall-through to the next
iteration carrying the mutated state and the computed `next_target`
(the inner sleep loop then parks until `next_target`). -/
inductive CycleResult
  | halted
  | raised (e : PyError)
  | next (s : SchedState) (nextTarget : ℚ)
deriving DecidableEq

/-- One full body of the outer `while True:` loop of `start()`: the
empty-tables guard, the `INTERVALS` firing pass, the `TIMERS` firing
pass, and the `next_target` computation.  Besides the outcome it
returns the periodic handlers fired and the one-shot invocations, in
order.  Note that the body never consults `running`. -/
def cycle (s : SchedState) (now : ℚ) : CycleResult × List Fn × List TInvocation :=
  if s.timers = [] ∧ s.intervals = [] then (.halted, [], [])
  else
    match fireTimersTop now s.timers with
    | (.error e, invs) => (.raised e, (fireIntervals now s.intervals).2, invs)
    | (.ok T', invs) =>
      match pymin (nextTargetList (fireIntervals now s.intervals).1 T') with
      | .error e => (.raised e, (fireIntervals now s.intervals).2, invs)
      | .ok m =>
        (.next { s with intervals := (fireIntervals now s.intervals).1, timers := T' } m,
         (fireIntervals now s.intervals).2, invs)

/-- Run the outer loop for a list of sampled monotonic times, collecting
the periodic firing events `(handler, sampled time)`; the run ends when
the loop halts or raises (the firings of the final cycle are kept: they
happened before the exception). -/
def runCycles (s : SchedState) : List ℚ → List (Fn × ℚ)
  | [] => []
  | now :: rest =>
    match cycle s now with
    | (.next s' _, firedI, _) => firedI.map (fun f => (f, now)) ++ runCycles s' rest
    | (.halted, firedI, _) => firedI.map (fun f => (f, now))
    | (.raised _, firedI, _) => firedI.map (fun f => (f, now))

/-- Firing times of one handler extracted from a periodic firing
trace. -/
def projT (fn : Fn) (evs : List (Fn × ℚ)) : List ℚ :=
  evs.filterMap (fun p => if p.1 = fn then some p.2 else none)

/-- True exactly for the fall-through outcome, i.e. when a subsequent
cycle of the outer loop begins. -/
def resultContinues : CycleResult → Bool
  | .next _ _ => true
  | _ => false

/-- Directions a `digitalio.DigitalInOut` can be configured with. -/
inductive Direction
  | INPUT
  | OUTPUT
deriving DecidableEq

/-- Pull-resistor configuration of a pin. -/
inductive Pull
  | UP
  | DOWN
deriving DecidableEq

/-- A configured `DigitalInOut` handle: the pin it was created from and
the direction/pull it was configured with. -/
structure DigitalInOut where
  pin : Pin
  direction : Direction
  pull : Pull
deriving DecidableEq

/-- The handle `on()` creates for a pin seen for the first time:
`direction = Direction.INPUT`, `pull = Pull.DOWN`. -/
def mkDio (b : Pin) : DigitalInOut := ⟨b, .INPUT, .DOWN⟩

/-- The module-level button state: `BUTTONS`, `DIOS` and `PRESSES`
(each binding is `(fn, buttons, action)` in registration order). -/
structure ButtonState where
  buttons : List Pin
  dios : List DigitalInOut
  presses : List (Fn × List Pin × ℕ)
deriving DecidableEq

/-- Initial module state: all three sequences empty. -/
def initButtons : ButtonState := ⟨[], [], []⟩

/-- The body of the `for button in buttons:` loop of `on()`: a pin not
yet in `BUTTONS` gets a freshly configured handle appended to `DIOS`
alongside its `BUTTONS` entry; a known pin is skipped. -/
def registerPin (s : ButtonState) (b : Pin) : ButtonState :=
  if b ∈ s.buttons then s
  else { s with buttons := s.buttons ++ [b], dios := s.dios ++ [mkDio b] }

/-- Source `on(*buttons, action)` applied to a handler `fn`: register
every pin, then append the binding to `PRESSES`.  No validation of any
kind is performed; the function cannot fail. -/
def on_ (buttons : List Pin) (action : ℕ) (fn : Fn) (s : ButtonState) : ButtonState :=
  let s1 := buttons.foldl registerPin s
  { s1 with presses := s1.presses ++ [(fn, buttons, action)] }

/-- The mutable part of a `Gamepad` instance: `self.down` (the previous
raw sample) and `self.pressed` (the pins currently held). -/
structure GState where
  down : List Pin
  pressed : List Pin
deriving DecidableEq

/-- State of a freshly constructed `Gamepad`. -/
def initG : GState := ⟨[], []⟩

/-- Python `list.remove`: drop the first occurrence (the call sites in
the source only remove elements known to be present, so the
`ValueError` path is not represented). -/
def pyRemove (x : Pin) : List Pin → List Pin
  | [] => []
  | y :: ys => if y = x then ys else y :: pyRemove x ys

/-- The edge-detection part of `Gamepad.__call__`.  The raw sample is
`[b for b, dio in zip(BUTTONS, DIOS) if dio.value]`, modelled via the
pin-level function `level`.  Returns the updated instance state and the
`(fresh_down, fresh_up)` pair when the dispatch part runs, `none` when
the method returns early. -/
def gamepadCall (buttons : List Pin) (level : Pin → Bool) (g : GState) :
    GState × Option (List Pin × List Pin) :=
  let down := buttons.filter level
  if down ≠ g.down then ({ down := down, pressed := g.pressed }, none)
  else
    let freshDown := down.filter (fun b => decide (b ∉ g.pressed))
    let freshUp := g.pressed.filter (fun b => decide (b ∉ down))
    let pressed1 := if freshDown ≠ [] then g.pressed ++ freshDown else g.pressed
    let pressed2 :=
      if freshUp ≠ [] then freshUp.foldl (fun l b => pyRemove b l) pressed1 else pressed1
    if freshDown = [] ∧ freshUp = [] then ({ down := down, pressed := pressed2 }, none)
    else ({ down := down, pressed := pressed2 }, some (freshDown, freshUp))

/-- Bool test that every pin of a chord lies in an event set
(`all(b in evs for b in btns)`). -/
def chordIn (btns evs : List Pin) : Bool := btns.all (fun b => decide (b ∈ evs))

/-- The dispatch loop at the end of `Gamepad.__call__`.  `prop fn` is
true when `fn(now)` returns the `PROPOGATE` sentinel.  Returns the
handlers invoked, in order; the loop breaks as soon as an invoked
handler returns something other than the sentinel. -/
def dispatch (prop : Fn → Bool) (freshDown freshUp : List Pin) :
    List (Fn × List Pin × ℕ) → List Fn
  | [] => []
  | (fn, btns, act) :: rest =>
    if act = DOWN ∧ chordIn btns freshDown then
      if prop fn then fn :: dispatch prop freshDown freshUp rest else [fn]
    else if act = UP ∧ chordIn btns freshUp then
      if prop fn then fn :: dispatch prop freshDown freshUp rest else [fn]
    else dispatch prop freshDown freshUp rest

/-- A binding matches the tick's event sets: its action is `DOWN` and
its whole chord is freshly down, or its action is `UP` and its whole
chord is freshly up. -/
def matchesB (freshDown freshUp : List Pin) (e : Fn × List Pin × ℕ) : Bool :=
  (decide (e.2.2 = DOWN) && chordIn e.2.1 freshDown) ||
  (decide (e.2.2 = UP) && chordIn e.2.1 freshUp)

/-- Spec-side dispatch over the matching bindings only: every matching
handler up to and including the first non-propagating one fires. -/
def firstWins (prop : Fn → Bool) : List Fn → List Fn
  | [] => []
  | f :: fs => if prop f then f :: firstWins prop fs else [f]

/-- The invariant of the pin-registration tables: `BUTTONS` holds
pairwise-distinct pins and `DIOS` is its pointwise image under handle
configuration (hence index-aligned, one configured handle per pin). -/
def PinInv (s : ButtonState) : Prop :=
  s.buttons.Nodup ∧ s.dios = s.buttons.map mkDio

/-! ### Association-list (dict) lemmas -/

theorem dictDel_sublist {α : Type} (k : Fn) (l : List (Fn × α)) :
    List.Sublist (dictDel k l) l := by
  induction l with
  | nil => simp [dictDel]
  | cons p rest ih =>
    obtain ⟨k', v'⟩ := p
    by_cases h : k' = k
    · simp only [dictDel, if_pos h]
      exact List.sublist_cons_self _ _
    · simp only [dictDel, if_neg h]
      exact ih.cons₂ (k', v')

theorem keysNodup_of_sublist {α : Type} {l l' : List (Fn × α)} (h : List.Sublist l' l)
    (hn : keysNodup l) : keysNodup l' :=
  List.Nodup.sublist (h.map Prod.fst) hn

theorem not_mem_keys_dictDel {α : Type} {k : Fn} {l : List (Fn × α)} (hn : keysNodup l) :
    k ∉ (dictDel k l).map Prod.fst := by
  induction l with
  | nil => simp [dictDel]
  | cons p rest ih =>
    obtain ⟨k', v'⟩ := p
    rw [keysNodup, List.map_cons, List.nodup_cons] at hn
    unfold dictDel
    by_cases h : k' = k
    · subst h
      simpa using hn.1
    · simpa [h, Ne.symm h] using ih hn.2

theorem dictSet_self_mem {α : Type} (k : Fn) (v : α) (l : List (Fn × α)) :
    (k, v) ∈ dictSet k v l := by
  induction l with
  | nil => simp [dictSet]
  | cons p rest ih =>
    obtain ⟨k', v'⟩ := p
    unfold dictSet
    by_cases h : k' = k
    · simp [h]
    · simp [h, ih]

theorem mem_keys_dictSet {α : Type} {a k : Fn} {v : α} : ∀ {l : List (Fn × α)},
    a ∈ (dictSet k v l).map Prod.fst → a ∈ l.map Prod.fst ∨ a = k := by
  intro l
  induction l with
  | nil =>
    intro h
    right
    simpa [dictSet] using h
  | cons p rest ih =>
    obtain ⟨k', v'⟩ := p
    intro h
    by_cases hk : k' = k
    · subst hk
      simp only [dictSet, if_pos rfl, List.map_cons] at h
      rcases List.mem_cons.mp h with h' | h'
      · exact .inr h'
      · exact .inl (by simp only [List.map_cons]; exact List.mem_cons_of_mem _ h')
    · simp only [dictSet, if_neg hk, List.map_cons] at h
      rcases List.mem_cons.mp h with h' | h'
      · exact .inl (by simp only [List.map_cons]; exact h' ▸ List.mem_cons_self _ _)
      · rcases ih h' with h'' | h''
        · exact .inl (by simp only [List.map_cons]; exact List.mem_cons_of_mem _ h'')
        · exact .inr h''

theorem keysNodup_dictSet {α : Type} {k : Fn} (v : α) : ∀ {l : List (Fn × α)},
    keysNodup l → keysNodup (dictSet k v l) := by
  intro l
  induction l with
  | nil => intro _; simp [dictSet, keysNodup]
  | cons p rest ih =>
    obtain ⟨k', v'⟩ := p
    intro hn
    rw [keysNodup, List.map_cons, List.nodup_cons] at hn
    by_cases h : k' = k
    · subst h
      have he : dictSet k' v ((k', v') :: rest) = (k', v) :: rest := by
        simp [dictSet]
      rw [keysNodup, he, List.map_cons, List.nodup_cons]
      exact ⟨hn.1, hn.2⟩
    · have he : dictSet k v ((k', v') :: rest) = (k', v') :: dictSet k v rest := by
        simp [dictSet, h]
      rw [keysNodup, he, List.map_cons, List.nodup_cons]
      refine ⟨fun hmem => ?_, ih hn.2⟩
      rcases mem_keys_dictSet hmem with h' | h'
      · exact hn.1 h'
      · exact h h'

/-! ### Minimum computation lemmas -/

theorem foldl_min_spec (xs : List ℚ) : ∀ x : ℚ,
    xs.foldl min x ∈ x :: xs ∧ ∀ y ∈ x :: xs, xs.foldl min x ≤ y := by
  induction xs with
  | nil =>
    intro x
    refine ⟨List.mem_cons_self _ _, fun y hy => ?_⟩
    rcases List.mem_cons.mp hy with h | h
    · exact le_of_eq h.symm
    · exact absurd h (List.not_mem_nil y)
  | cons z zs ih =>
    intro x
    obtain ⟨hmem, hle⟩ := ih (min x z)
    have hfold : (z :: zs).foldl min x = zs.foldl min (min x z) := rfl
    constructor
    · rw [hfold]
      rcases List.mem_cons.mp hmem with hm | hm
      · rcases min_choice x z with hc | hc
        · rw [hm, hc]; exact List.mem_cons_self _ _
        · rw [hm, hc]; exact List.mem_cons_of_mem _ (List.mem_cons_self _ _)
      · exact List.mem_cons_of_mem _ (List.mem_cons_of_mem _ hm)
    · intro y hy
      rw [hfold]
      rcases List.mem_cons.mp hy with hy1 | hy1
      · rw [hy1]
        calc zs.foldl min (min x z) ≤ min x z := hle _ (List.mem_cons_self _ _)
          _ ≤ x := min_le_left _ _
      · rcases List.mem_cons.mp hy1 with hy2 | hy2
        · rw [hy2]
          calc zs.foldl min (min x z) ≤ min x z := hle _ (List.mem_cons_self _ _)
            _ ≤ z := min_le_right _ _
        · exact hle _ (List.mem_cons_of_mem _ hy2)

theorem pymin_spec (l : List ℚ) (hl : l ≠ []) :
    ∃ m, pymin l = .ok m ∧ m ∈ l ∧ ∀ x ∈ l, m ≤ x := by
  match l with
  | [] => exact absurd rfl hl
  | x :: xs =>
    exact ⟨xs.foldl min x, rfl, (foldl_min_spec xs x).1, (foldl_min_spec xs x).2⟩

/-- C9: in every cycle where at least one table entry remains after
firing, the computed next wake time is the minimum over all periodic
tasks of `last_fired + interval` and over all one-shot timers of the
deadline; the value is correct even though each `INTERVALS` entry is
stored as an `(interval, last_fired)` pair (the comprehension's swapped
unpacking only commutes the addition). -/
theorem next_wake_is_min (I : List (Fn × ℚ × ℚ)) (T : List (Fn × ℚ))
    (h : I ≠ [] ∨ T ≠ []) :
    ∃ m, pymin (nextTargetList I T) = .ok m ∧
      m ∈ I.map (fun p => p.2.2 + p.2.1) ++ T.map (fun p => p.2) ∧
      (∀ p ∈ I, m ≤ p.2.2 + p.2.1) ∧ (∀ p ∈ T, m ≤ p.2) := by
  have hcomm : nextTargetList I T =
      I.map (fun p => p.2.2 + p.2.1) ++ T.map (fun p => p.2) := by
    unfold nextTargetList
    have : (fun p : Fn × ℚ × ℚ => p.2.1 + p.2.2) = fun p : Fn × ℚ × ℚ => p.2.2 + p.2.1 := by
      funext p; exact add_comm _ _
    rw [this]
  have hne : nextTargetList I T ≠ [] := by
    rw [hcomm]
    rcases h with h | h <;> simp [List.append_eq_nil, h]
  obtain ⟨m, hm, hmem, hle⟩ := pymin_spec _ hne
  rw [hcomm] at hmem hle
  refine ⟨m, hm, hmem, fun p hp => ?_, fun p hp => ?_⟩
  · exact hle _ (by simp only [List.mem_append]; exact .inl (List.mem_map_of_mem _ hp))
  · exact hle _ (by simp only [List.mem_append]; exact .inr (List.mem_map_of_mem _ hp))

/-- C9 witness: a concrete table pair. -/
theorem next_wake_is_min_witness :
    ∃ m, pymin (nextTargetList [(0, (2, 3))] [(1, 4)]) = .ok m ∧
      m ∈ [(0, ((2 : ℚ), (3 : ℚ)))].map (fun p => p.2.2 + p.2.1) ++
          [(1, (4 : ℚ))].map (fun p => p.2) ∧
      (∀ p ∈ [(0, ((2 : ℚ), (3 : ℚ)))], m ≤ p.2.2 + p.2.1) ∧
      (∀ p ∈ [(1, (4 : ℚ))], m ≤ p.2) :=
  next_wake_is_min [(0, (2, 3))] [(1, 4)] (.inl (by simp))

/-- C2: contrary to the claim, a cycle that empties both tables does not
reach the top-of-cycle guard cleanly.  With no periodic tasks and one
due timer, the timer iteration itself raises `RuntimeError` (the dict
shrank mid-iteration); and even the next-wake computation on empty
tables, were it reached, would raise `ValueError` (`min([])`).  Only a
loop entered with both tables already empty halts cleanly with the
"nothing to do" report. -/
theorem empty_tables_cycle_crashes :
    (cycle ⟨true, [], [(0, 5)]⟩ 10).1 = .raised .dictChangedSize ∧
    pymin (nextTargetList [] []) = .error .valueErrorEmptyMin ∧
    (cycle ⟨true, [], []⟩ 0).1 = .halted := by
  decide

/-- C5 counterexample: registering a binding with an empty chord raises
no configuration error: `on()` with zero pins silently appends the
binding, and the empty chord then matches vacuously, firing on any
dispatched tick. -/
theorem empty_chord_counterexample :
    on_ [] DOWN 0 initButtons = ⟨[], [], [(0, [], DOWN)]⟩ ∧
    dispatch (fun _ => false) [5] [] [(0, [], DOWN)] = [0] := by
  decide

/-- C5 amended: calling the button-registration operation with an empty
set of pins never fails; it silently appends a binding with an empty
chord (leaving the pin tables untouched), and such a binding's
all-pins-matched condition is vacuously true, so it fires whenever the
dispatcher runs. -/
theorem empty_chord_silently_added :
    (∀ (act : ℕ) (fn : Fn) (s : ButtonState),
      on_ [] act fn s = { s with presses := s.presses ++ [(fn, [], act)] }) ∧
    (∀ (fn : Fn) (fd fu : List Pin),
      dispatch (fun _ => false) fd fu [(fn, [], DOWN)] = [fn]) := by
  constructor
  · intro act fn s; rfl
  · intro fn fd fu; rfl

/-- C8: the button dispatcher evaluates bindings in registration order,
a binding fires exactly when its whole chord lies in the tick's
matching event set, and dispatch stops as soon as a fired handler
returns a value other than the propagate sentinel.  In particular, with
bindings `[({A,B}, PRESS, h1), ({A}, PRESS, h2)]` and both `A`, `B`
freshly down, `h1` fires; `h2` fires as well exactly when `h1`
propagates (its chord `{A}` also matches the fresh-down set). -/
theorem dispatch_first_match_wins :
    (∀ (prop : Fn → Bool) (fd fu : List Pin) (presses : List (Fn × List Pin × ℕ)),
      dispatch prop fd fu presses =
        firstWins prop ((presses.filter (matchesB fd fu)).map Prod.fst)) ∧
    dispatch (fun _ => false) [0, 1] [] [(1, [0, 1], DOWN), (2, [0], DOWN)] = [1] ∧
    dispatch (fun _ => true) [0, 1] [] [(1, [0, 1], DOWN), (2, [0], DOWN)] = [1, 2] := by
  refine ⟨?_, by decide, by decide⟩
  intro prop fd fu presses
  induction presses with
  | nil => rfl
  | cons e rest ih =>
    obtain ⟨fn, btns, act⟩ := e
    by_cases h1 : act = DOWN ∧ chordIn btns fd = true
    · have hm : matchesB fd fu (fn, btns, act) = true := by
        simp only [matchesB, Bool.or_eq_true, Bool.and_eq_true, decide_eq_true_eq]
        exact .inl ⟨h1.1, h1.2⟩
      have hd : dispatch prop fd fu ((fn, btns, act) :: rest) =
          if prop fn then fn :: dispatch prop fd fu rest else [fn] := by
        simp only [dispatch]
        rw [if_pos h1]
      rw [hd, List.filter_cons, if_pos hm, List.map_cons]
      show _ = firstWins prop (fn :: (rest.filter (matchesB fd fu)).map Prod.fst)
      cases hp : prop fn <;> simp only [firstWins, hp, if_true, if_false, ih]
    · by_cases h2 : act = UP ∧ chordIn btns fu = true
      · have hm : matchesB fd fu (fn, btns, act) = true := by
          simp only [matchesB, Bool.or_eq_true, Bool.and_eq_true, decide_eq_true_eq]
          exact .inr ⟨h2.1, h2.2⟩
        have hd : dispatch prop fd fu ((fn, btns, act) :: rest) =
            if prop fn then fn :: dispatch prop fd fu rest else [fn] := by
          simp only [dispatch]
          rw [if_neg h1, if_pos h2]
        rw [hd, List.filter_cons, if_pos hm, List.map_cons]
        show _ = firstWins prop (fn :: (rest.filter (matchesB fd fu)).map Prod.fst)
        cases hp : prop fn <;> simp only [firstWins, hp, if_true, if_false, ih]
      · have hm : matchesB fd fu (fn, btns, act) = false := by
          rw [Bool.eq_false_iff]
          intro hc
          simp only [matchesB, Bool.or_eq_true, Bool.and_eq_true, decide_eq_true_eq] at hc
          rcases hc with hc | hc
          · exact h1 hc
          · exact h2 hc
        have hd : dispatch prop fd fu ((fn, btns, act) :: rest) =
            dispatch prop fd fu rest := by
          simp only [dispatch]
          rw [if_neg h1, if_neg h2]
        rw [hd, List.filter_cons, if_neg (by simp [hm]), ih]

/-! ### Pin-registration lemmas -/

theorem registerPin_inv {s : ButtonState} (h : PinInv s) (b : Pin) :
    PinInv (registerPin s b) := by
  unfold registerPin
  by_cases hb : b ∈ s.buttons
  · simpa [hb] using h
  · rw [if_neg hb]
    refine ⟨?_, ?_⟩
    · rw [← List.concat_eq_append]
      exact h.1.concat hb
    · simp [h.2]

theorem foldl_registerPin_inv (pins : List Pin) :
    ∀ {s : ButtonState}, PinInv s → PinInv (pins.foldl registerPin s) := by
  induction pins with
  | nil => intro s h; simpa using h
  | cons p rest ih =>
    intro s h
    exact ih (registerPin_inv h p)

theorem on_inv {s : ButtonState} (h : PinInv s) (pins : List Pin) (act : ℕ) (fn : Fn) :
    PinInv (on_ pins act fn s) := by
  unfold on_
  exact foldl_registerPin_inv pins h

/-- C10: across any sequence of `on()` registrations starting from the
initial module state, every pin appears in `BUTTONS` at most once even
when it occurs in several chords, `DIOS` is exactly `BUTTONS` mapped
through one-time handle configuration (direction input, pull down), and
the two sequences stay index-aligned. -/
theorem pin_registration_invariant (regs : List (List Pin × ℕ × Fn)) :
    PinInv (regs.foldl (fun s r => on_ r.1 r.2.1 r.2.2 s) initButtons) ∧
    (regs.foldl (fun s r => on_ r.1 r.2.1 r.2.2 s) initButtons).dios.length =
      (regs.foldl (fun s r => on_ r.1 r.2.1 r.2.2 s) initButtons).buttons.length := by
  have key : ∀ (l : List (List Pin × ℕ × Fn)) (s : ButtonState), PinInv s →
      PinInv (l.foldl (fun s r => on_ r.1 r.2.1 r.2.2 s) s) := by
    intro l
    induction l with
    | nil => intro s h; simpa using h
    | cons r rest ih => intro s h; exact ih _ (on_inv h r.1 r.2.1 r.2.2)
  have hinv : PinInv (regs.foldl (fun s r => on_ r.1 r.2.1 r.2.2 s) initButtons) :=
    key regs initButtons ⟨List.nodup_nil, rfl⟩
  exact ⟨hinv, by rw [hinv.2, List.length_map]⟩

/-! ### One-shot timer lemmas -/

theorem fireTimersAux_spec (now : ℚ) (table : List (Fn × ℚ)) (h : keysNodup table) :
    ∀ pending, (∀ p ∈ pending, p ∈ table) →
      (fireTimersAux now table pending).2.length ≤ 1 ∧
      ∀ inv ∈ (fireTimersAux now table pending).2,
        inv.now = now ∧
        (∃ d, (inv.fn, d) ∈ table ∧ d ≤ now) ∧
        inv.timersAt = dictDel inv.fn table ∧
        inv.fn ∉ inv.timersAt.map Prod.fst ∧
        ∀ d', (inv.fn, d') ∈ dictSet inv.fn d' inv.timersAt ∧
          keysNodup (dictSet inv.fn d' inv.timersAt) := by
  intro pending
  induction pending with
  | nil =>
    intro _
    exact ⟨by simp [fireTimersAux], by simp [fireTimersAux]⟩
  | cons q rest ih =>
    intro hp
    obtain ⟨fn, target⟩ := q
    by_cases hd : target ≤ now
    · have he : fireTimersAux now table ((fn, target) :: rest) =
          (.error .dictChangedSize, [⟨fn, now, dictDel fn table⟩]) := by
        simp only [fireTimersAux]
        rw [if_pos hd]
      rw [he]
      refine ⟨by simp, ?_⟩
      intro inv hinv
      obtain rfl := List.mem_singleton.mp hinv
      refine ⟨rfl, ⟨target, hp _ (List.mem_cons_self _ _), hd⟩, rfl, ?_, ?_⟩
      · exact not_mem_keys_dictDel h
      · intro d'
        refine ⟨dictSet_self_mem _ _ _, keysNodup_dictSet _ ?_⟩
        exact keysNodup_of_sublist (dictDel_sublist _ _) h
    · have he : fireTimersAux now table ((fn, target) :: rest) =
          fireTimersAux now table rest := by
        simp only [fireTimersAux]
        rw [if_neg hd]
      rw [he]
      exact ih (fun p hp' => hp _ (List.mem_cons_of_mem _ hp'))

/-- C3: for every registered one-shot timer processed by the timer loop,
the handler is invoked at most once, an invocation happens only when the
timer's stored deadline `d` satisfies `d <= now` for the sampled cycle
time, and the entry is removed from the timer table before the handler
runs: the table the handler observes is `dictDel` of its own key (its
key is absent), so a handler re-registering itself via `at()` simply
inserts a fresh entry with the new deadline, without colliding with the
old one (the keys stay pairwise distinct). -/
theorem oneshot_fire_semantics (now : ℚ) (table : List (Fn × ℚ)) (h : keysNodup table) :
    (fireTimersTop now table).2.length ≤ 1 ∧
    ∀ inv ∈ (fireTimersTop now table).2,
      inv.now = now ∧
      (∃ d, (inv.fn, d) ∈ table ∧ d ≤ now) ∧
      inv.timersAt = dictDel inv.fn table ∧
      inv.fn ∉ inv.timersAt.map Prod.fst ∧
      ∀ d', (inv.fn, d') ∈ dictSet inv.fn d' inv.timersAt ∧
        keysNodup (dictSet inv.fn d' inv.timersAt) :=
  fireTimersAux_spec now table h table (fun _ hp => hp)

/-- C3 witness: one due timer at deadline 5, sampled at time 10. -/
theorem oneshot_fire_semantics_witness :
    (fireTimersTop 10 [(0, 5)]).2.length ≤ 1 ∧
    (TInvocation.mk 0 10 []).timersAt = dictDel 0 [(0, 5)] :=
  ⟨(oneshot_fire_semantics 10 [(0, 5)] (by unfold keysNodup; decide)).1,
   ((oneshot_fire_semantics 10 [(0, 5)] (by unfold keysNodup; decide)).2 ⟨0, 10, []⟩
     (by decide)).2.2.1⟩

theorem fireTimersAux_due (now : ℚ) (table : List (Fn × ℚ)) :
    ∀ pending p, pending.find? (fun q => decide (q.2 ≤ now)) = some p →
      fireTimersAux now table pending =
        (.error .dictChangedSize, [⟨p.1, now, dictDel p.1 table⟩]) := by
  intro pending
  induction pending with
  | nil =>
    intro p hp
    simp [List.find?] at hp
  | cons q rest ih =>
    intro p hp
    obtain ⟨fn, target⟩ := q
    by_cases hd : target ≤ now
    · rw [List.find?_cons_of_pos _ (by simpa using hd)] at hp
      obtain rfl := Option.some_injective _ hp
      simp only [fireTimersAux]
      rw [if_pos hd]
    · rw [List.find?_cons_of_neg _ (by simpa using hd)] at hp
      have he : fireTimersAux now table ((fn, target) :: rest) =
          fireTimersAux now table rest := by
        simp only [fireTimersAux]
        rw [if_neg hd]
      rw [he]
      exact ih p hp

/-- C4: in every cycle in which at least one one-shot timer is due, the
timer loop deletes an entry from the dict it is iterating, so the next
iterator step raises `RuntimeError`: the cycle terminates abnormally
instead of completing timer processing and reaching the next-wake
computation, and exactly the first due handler has been invoked (after
its entry's removal) before the error. -/
theorem due_timer_iteration_raises (s : SchedState) (now : ℚ)
    (h : ∃ p ∈ s.timers, p.2 ≤ now) :
    (cycle s now).1 = .raised .dictChangedSize ∧
    (cycle s now).2.2 =
      (s.timers.find? (fun q => decide (q.2 ≤ now))).toList.map
        (fun p => ⟨p.1, now, dictDel p.1 s.timers⟩) := by
  obtain ⟨p0, hp0, hd0⟩ := h
  have hsome : ∃ p, s.timers.find? (fun q => decide (q.2 ≤ now)) = some p := by
    have h1 : (s.timers.find? (fun q => decide (q.2 ≤ now))).isSome :=
      List.find?_isSome.mpr ⟨p0, hp0, by simpa using hd0⟩
    exact Option.isSome_iff_exists.mp h1
  obtain ⟨p, hp⟩ := hsome
  have htop : fireTimersTop now s.timers =
      (.error .dictChangedSize, [⟨p.1, now, dictDel p.1 s.timers⟩]) :=
    fireTimersAux_due now s.timers s.timers p hp
  have hg : ¬(s.timers = [] ∧ s.intervals = []) := by
    rintro ⟨ht, _⟩
    rw [ht] at hp0
    exact absurd hp0 (List.not_mem_nil _)
  have hcy : cycle s now =
      (.raised .dictChangedSize, (fireIntervals now s.intervals).2,
       [⟨p.1, now, dictDel p.1 s.timers⟩]) := by
    simp only [cycle]
    rw [if_neg hg, htop]
  refine ⟨by rw [hcy], ?_⟩
  rw [hcy, hp]
  rfl

/-- C4 witness: two timers, the first not due, the second due. -/
theorem due_timer_iteration_raises_witness :
    (cycle ⟨true, [], [(3, 20), (0, 5)]⟩ 10).1 = .raised .dictChangedSize ∧
    (cycle ⟨true, [], [(3, 20), (0, 5)]⟩ 10).2.2 =
      (([(3, (20 : ℚ)), (0, 5)]).find? (fun q => decide (q.2 ≤ (10 : ℚ)))).toList.map
        (fun p => ⟨p.1, 10, dictDel p.1 [(3, 20), (0, 5)]⟩) :=
  due_timer_iteration_raises ⟨true, [], [(3, 20), (0, 5)]⟩ 10
    ⟨(0, 5), by decide, by decide⟩

/-! ### Stop-flag lemmas -/

/-- C1: contrary to the claim, a stop request is never observed by the
event loop.  `stop()` only flips the `RUNNING` flag, but the outer loop
of `start()` is `while True:` and never consults `RUNNING`: a cycle run
after `stop()` behaves exactly like one run without it (same
continuation behaviour, same firings), and in particular a loop with a
pending periodic task proceeds to a next cycle after `stop()` instead
of halting. -/
theorem stop_flag_never_observed :
    (∀ (s : SchedState) (now : ℚ),
      resultContinues (cycle (stop s) now).1 = resultContinues (cycle s now).1 ∧
      (cycle (stop s) now).2 = (cycle s now).2) ∧
    (cycle (stop ⟨true, [(7, (2, 0))], []⟩) 1).1 = .next (stop ⟨true, [(7, (2, 0))], []⟩) 2 := by
  constructor
  · intro s now
    unfold cycle stop
    dsimp only
    by_cases hg : s.timers = [] ∧ s.intervals = []
    · rw [if_pos hg, if_pos hg]
      exact ⟨rfl, rfl⟩
    · rw [if_neg hg, if_neg hg]
      rcases hq : fireTimersTop now s.timers with ⟨r, invs⟩
      cases r with
      | error e => exact ⟨rfl, rfl⟩
      | ok T' =>
        dsimp only
        cases hp : pymin (nextTargetList (fireIntervals now s.intervals).1 T') with
        | error e => exact ⟨rfl, rfl⟩
        | ok m => exact ⟨rfl, rfl⟩
  · norm_num [cycle, stop, fireIntervals, fireTimersTop, fireTimersAux, nextTargetList, pymin]

/-! ### Periodic-task lemmas -/

theorem fireIntervals_keys (now : ℚ) : ∀ I : List (Fn × ℚ × ℚ),
    ((fireIntervals now I).1).map Prod.fst = I.map Prod.fst := by
  intro I
  induction I with
  | nil => rfl
  | cons e rest ih =>
    obtain ⟨g, j, l⟩ := e
    by_cases hd : l + j ≤ now
    · have he : fireIntervals now ((g, j, l) :: rest) =
          ((g, j, now) :: (fireIntervals now rest).1, g :: (fireIntervals now rest).2) := by
        simp only [fireIntervals]
        rw [if_pos hd]
      rw [he, List.map_cons, List.map_cons, ih]
    · have he : fireIntervals now ((g, j, l) :: rest) =
          ((g, j, l) :: (fireIntervals now rest).1, (fireIntervals now rest).2) := by
        simp only [fireIntervals]
        rw [if_neg hd]
      rw [he, List.map_cons, List.map_cons, ih]

theorem fireIntervals_fired_sublist (now : ℚ) : ∀ I : List (Fn × ℚ × ℚ),
    List.Sublist (fireIntervals now I).2 (I.map Prod.fst) := by
  intro I
  induction I with
  | nil => simp [fireIntervals]
  | cons e rest ih =>
    obtain ⟨g, j, l⟩ := e
    by_cases hd : l + j ≤ now
    · have he : fireIntervals now ((g, j, l) :: rest) =
          ((g, j, now) :: (fireIntervals now rest).1, g :: (fireIntervals now rest).2) := by
        simp only [fireIntervals]
        rw [if_pos hd]
      rw [he, List.map_cons]
      exact ih.cons₂ g
    · have he : fireIntervals now ((g, j, l) :: rest) =
          ((g, j, l) :: (fireIntervals now rest).1, (fireIntervals now rest).2) := by
        simp only [fireIntervals]
        rw [if_neg hd]
      rw [he, List.map_cons]
      exact ih.cons g

theorem mem_fireIntervals_fired (now : ℚ) :
    ∀ {I : List (Fn × ℚ × ℚ)} {fn : Fn} {i last : ℚ},
      keysNodup I → (fn, (i, last)) ∈ I →
      (fn ∈ (fireIntervals now I).2 ↔ last + i ≤ now) := by
  intro I
  induction I with
  | nil =>
    intro fn i last _ hm
    exact absurd hm (List.not_mem_nil _)
  | cons e rest ih =>
    obtain ⟨g, j, l⟩ := e
    intro fn i last h hm
    rw [keysNodup, List.map_cons, List.nodup_cons] at h
    rcases List.mem_cons.mp hm with hm1 | hm1
    · obtain ⟨rfl, rfl, rfl⟩ : g = fn ∧ j = i ∧ l = last := by
        have hsy := hm1.symm
        simp only [Prod.mk.injEq] at hsy
        exact ⟨hsy.1, hsy.2.1, hsy.2.2⟩
      by_cases hd : l + j ≤ now
      · have he : fireIntervals now ((g, j, l) :: rest) =
            ((g, j, now) :: (fireIntervals now rest).1, g :: (fireIntervals now rest).2) := by
          simp only [fireIntervals]
          rw [if_pos hd]
        rw [he]
        simp [List.mem_cons, hd]
      · have he : fireIntervals now ((g, j, l) :: rest) =
            ((g, j, l) :: (fireIntervals now rest).1, (fireIntervals now rest).2) := by
          simp only [fireIntervals]
          rw [if_neg hd]
        rw [he]
        constructor
        · intro hf
          exact absurd ((fireIntervals_fired_sublist now rest).subset hf) h.1
        · intro hc
          exact absurd hc hd
    · have hfn : fn ∈ rest.map Prod.fst := List.mem_map_of_mem Prod.fst hm1
      have hne : g ≠ fn := fun hgf => h.1 (hgf ▸ hfn)
      by_cases hd : l + j ≤ now
      · have he : fireIntervals now ((g, j, l) :: rest) =
            ((g, j, now) :: (fireIntervals now rest).1, g :: (fireIntervals now rest).2) := by
          simp only [fireIntervals]
          rw [if_pos hd]
        rw [he]
        constructor
        · intro hf
          rcases List.mem_cons.mp hf with hq | hq
          · exact absurd hq.symm hne
          · exact (ih h.2 hm1).mp hq
        · intro hc
          exact List.mem_cons_of_mem _ ((ih h.2 hm1).mpr hc)
      · have he : fireIntervals now ((g, j, l) :: rest) =
            ((g, j, l) :: (fireIntervals now rest).1, (fireIntervals now rest).2) := by
          simp only [fireIntervals]
          rw [if_neg hd]
        rw [he]
        exact ih h.2 hm1

theorem mem_fireIntervals_table (now : ℚ) :
    ∀ {I : List (Fn × ℚ × ℚ)} {fn : Fn} {i last : ℚ},
      (fn, (i, last)) ∈ I →
      (fn, (i, if last + i ≤ now then now else last)) ∈ (fireIntervals now I).1 := by
  intro I
  induction I with
  | nil =>
    intro fn i last hm
    exact absurd hm (List.not_mem_nil _)
  | cons e rest ih =>
    obtain ⟨g, j, l⟩ := e
    intro fn i last hm
    rcases List.mem_cons.mp hm with hm1 | hm1
    · obtain ⟨rfl, rfl, rfl⟩ : g = fn ∧ j = i ∧ l = last := by
        have hsy := hm1.symm
        simp only [Prod.mk.injEq] at hsy
        exact ⟨hsy.1, hsy.2.1, hsy.2.2⟩
      by_cases hd : l + j ≤ now
      · have he : fireIntervals now ((g, j, l) :: rest) =
            ((g, j, now) :: (fireIntervals now rest).1, g :: (fireIntervals now rest).2) := by
          simp only [fireIntervals]
          rw [if_pos hd]
        rw [he, if_pos hd]
        exact List.mem_cons_self _ _
      · have he : fireIntervals now ((g, j, l) :: rest) =
            ((g, j, l) :: (fireIntervals now rest).1, (fireIntervals now rest).2) := by
          simp only [fireIntervals]
          rw [if_neg hd]
        rw [he, if_neg hd]
        exact List.mem_cons_self _ _
    · by_cases hd : l + j ≤ now
      · have he : fireIntervals now ((g, j, l) :: rest) =
            ((g, j, now) :: (fireIntervals now rest).1, g :: (fireIntervals now rest).2) := by
          simp only [fireIntervals]
          rw [if_pos hd]
        rw [he]
        exact List.mem_cons_of_mem _ (ih hm1)
      · have he : fireIntervals now ((g, j, l) :: rest) =
            ((g, j, l) :: (fireIntervals now rest).1, (fireIntervals now rest).2) := by
          simp only [fireIntervals]
          rw [if_neg hd]
        rw [he]
        exact List.mem_cons_of_mem _ (ih hm1)

theorem filterMap_single (fn : Fn) (v : ℚ) : ∀ l : List Fn, l.Nodup →
    l.filterMap (fun f => if f = fn then some v else none) =
      if fn ∈ l then [v] else [] := by
  intro l
  induction l with
  | nil => intro _; simp
  | cons a l' ih =>
    intro h
    rw [List.nodup_cons] at h
    by_cases ha : a = fn
    · subst ha
      rw [List.filterMap_cons, if_pos rfl]
      dsimp only
      rw [ih h.2, if_neg h.1, if_pos (List.mem_cons_self _ _)]
    · rw [List.filterMap_cons, if_neg ha]
      dsimp only
      rw [ih h.2]
      by_cases hm : fn ∈ l'
      · rw [if_pos hm, if_pos (List.mem_cons_of_mem _ hm)]
      · rw [if_neg hm, if_neg ?_]
        intro hc
        rcases List.mem_cons.mp hc with hq | hq
        · exact ha hq.symm
        · exact hm hq

theorem projT_append (fn : Fn) (a b : List (Fn × ℚ)) :
    projT fn (a ++ b) = projT fn a ++ projT fn b := by
  simp [projT, List.filterMap_append]

theorem projT_fired (now : ℚ) {I : List (Fn × ℚ × ℚ)} {fn : Fn} {i last : ℚ}
    (h : keysNodup I) (hm : (fn, (i, last)) ∈ I) :
    projT fn (((fireIntervals now I).2).map (fun f => (f, now))) =
      if last + i ≤ now then [now] else [] := by
  have h1 : projT fn (((fireIntervals now I).2).map (fun f => (f, now))) =
      ((fireIntervals now I).2).filterMap (fun f => if f = fn then some now else none) := by
    simp [projT, List.filterMap_map]
    rfl
  have h2 : ((fireIntervals now I).2).Nodup :=
    List.Nodup.sublist (fireIntervals_fired_sublist now I) h
  rw [h1, filterMap_single fn now _ h2]
  by_cases hd : last + i ≤ now
  · rw [if_pos hd, if_pos ((mem_fireIntervals_fired now h hm).mpr hd)]
  · rw [if_neg hd, if_neg (fun hc => hd ((mem_fireIntervals_fired now h hm).mp hc))]

theorem cycle_fired (s : SchedState) (now : ℚ) (hg : ¬(s.timers = [] ∧ s.intervals = [])) :
    (cycle s now).2.1 = (fireIntervals now s.intervals).2 := by
  simp only [cycle]
  rw [if_neg hg]
  rcases hq : fireTimersTop now s.timers with ⟨r, invs⟩
  cases r with
  | error e => rfl
  | ok T' =>
    dsimp only
    cases hp : pymin (nextTargetList (fireIntervals now s.intervals).1 T') with
    | error e => rfl
    | ok m => rfl

theorem cycle_next_intervals (s : SchedState) (now : ℚ) (s' : SchedState) (m : ℚ)
    (h : (cycle s now).1 = .next s' m) :
    s'.intervals = (fireIntervals now s.intervals).1 := by
  by_cases hg : s.timers = [] ∧ s.intervals = []
  · simp only [cycle, if_pos hg] at h
    exact absurd h (by simp)
  · simp only [cycle, if_neg hg] at h
    rcases hq : fireTimersTop now s.timers with ⟨r, invs⟩
    rw [hq] at h
    cases r with
    | error e => exact absurd h (by simp)
    | ok T' =>
      dsimp only at h
      cases hp : pymin (nextTargetList (fireIntervals now s.intervals).1 T') with
      | error e =>
        rw [hp] at h
        exact absurd h (by simp)
      | ok m' =>
        rw [hp] at h
        simp only [CycleResult.next.injEq] at h
        rw [← h.1]

theorem runCycles_chain (nows : List ℚ) : ∀ (s : SchedState) (fn : Fn) (i last : ℚ),
    keysNodup s.intervals → (fn, (i, last)) ∈ s.intervals →
    List.Chain (fun a b => a + i ≤ b) last (projT fn (runCycles s nows)) := by
  induction nows with
  | nil =>
    intro s fn i last _ _
    simp [runCycles, projT]
  | cons now rest ih =>
    intro s fn i last h1 h2
    by_cases hg : s.timers = [] ∧ s.intervals = []
    · rw [hg.2] at h2
      exact absurd h2 (List.not_mem_nil _)
    · rcases hcy : cycle s now with ⟨r, firedI, invs⟩
      have hfired : firedI = (fireIntervals now s.intervals).2 := by
        have hcf := cycle_fired s now hg
        rw [hcy] at hcf
        exact hcf
      cases r with
      | next s' m =>
        have hs' : s'.intervals = (fireIntervals now s.intervals).1 :=
          cycle_next_intervals s now s' m (by rw [hcy])
        have hrun : runCycles s (now :: rest) =
            firedI.map (fun f => (f, now)) ++ runCycles s' rest := by
          simp [runCycles, hcy]
        have hn' : keysNodup s'.intervals := by
          rw [hs', keysNodup, fireIntervals_keys]
          exact h1
        rw [hrun, projT_append, hfired, projT_fired now h1 h2]
        by_cases hd : last + i ≤ now
        · rw [if_pos hd]
          refine List.Chain.cons hd (ih s' fn i now hn' ?_)
          have hmem := mem_fireIntervals_table now h2
          rw [if_pos hd] at hmem
          rw [hs']
          exact hmem
        · rw [if_neg hd]
          rw [List.nil_append]
          refine ih s' fn i last hn' ?_
          have hmem := mem_fireIntervals_table now h2
          rw [if_neg hd] at hmem
          rw [hs']
          exact hmem
      | halted =>
        have hrun : runCycles s (now :: rest) = firedI.map (fun f => (f, now)) := by
          simp [runCycles, hcy]
        rw [hrun, hfired, projT_fired now h1 h2]
        by_cases hd : last + i ≤ now
        · rw [if_pos hd]
          exact List.Chain.cons hd List.Chain.nil
        · rw [if_neg hd]
          exact List.Chain.nil
      | raised e =>
        have hrun : runCycles s (now :: rest) = firedI.map (fun f => (f, now)) := by
          simp [runCycles, hcy]
        rw [hrun, hfired, projT_fired now h1 h2]
        by_cases hd : last + i ≤ now
        · rw [if_pos hd]
          exact List.Chain.cons hd List.Chain.nil
        · rw [if_neg hd]
          exact List.Chain.nil

/-- C7: a registered periodic task with interval `i` fires in a cycle
exactly when `last_fired + i <= now` for the sampled time `now`, its
`last_fired` is then set to `now`, and consequently along any run of the
loop the firing times of the task form a chain in which each firing is
at least `i` after the previous one (and the first at least `i` after
the initial `last_fired`): due items fire at-or-after their due time,
never before. -/
theorem periodic_never_early (s : SchedState) (nows : List ℚ) (fn : Fn) (i last : ℚ)
    (h1 : keysNodup s.intervals) (h2 : (fn, (i, last)) ∈ s.intervals) :
    (∀ now, fn ∈ (fireIntervals now s.intervals).2 ↔ last + i ≤ now) ∧
    (∀ now, last + i ≤ now → (fn, (i, now)) ∈ (fireIntervals now s.intervals).1) ∧
    List.Chain (fun a b => a + i ≤ b) last (projT fn (runCycles s nows)) := by
  refine ⟨fun now => mem_fireIntervals_fired now h1 h2, fun now hd => ?_, ?_⟩
  · have hmem := mem_fireIntervals_table now h2
    rwa [if_pos hd] at hmem
  · exact runCycles_chain nows s fn i last h1 h2

/-- C7 witness: one task with interval 2 sampled at times 1, 2, 5; it
fires at 2 and at 5. -/
theorem periodic_never_early_witness :
    List.Chain (fun a b => a + 2 ≤ b) 0
      (projT 3 (runCycles ⟨true, [(3, (2, 0))], []⟩ [1, 2, 5])) :=
  (periodic_never_early ⟨true, [(3, (2, 0))], []⟩ [1, 2, 5] 3 2 0
    (by unfold keysNodup; decide) (by decide)).2.2

/-! ### Edge-detector lemmas -/

theorem pyRemove_sublist (x : Pin) : ∀ l : List Pin, List.Sublist (pyRemove x l) l := by
  intro l
  induction l with
  | nil => simp [pyRemove]
  | cons y ys ih =>
    by_cases h : y = x
    · simp only [pyRemove, if_pos h]
      exact List.sublist_cons_self _ _
    · simp only [pyRemove, if_neg h]
      exact ih.cons₂ y

theorem pyRemove_mem (x : Pin) : ∀ {l : List Pin}, l.Nodup →
    ∀ b, (b ∈ pyRemove x l ↔ b ∈ l ∧ b ≠ x) := by
  intro l
  induction l with
  | nil =>
    intro _ b
    simp [pyRemove]
  | cons y ys ih =>
    intro h b
    rw [List.nodup_cons] at h
    by_cases hyx : y = x
    · subst hyx
      simp only [pyRemove, if_pos rfl]
      constructor
      · intro hb
        exact ⟨List.mem_cons_of_mem _ hb, fun hbx => h.1 (hbx ▸ hb)⟩
      · rintro ⟨hb, hbx⟩
        rcases List.mem_cons.mp hb with h' | h'
        · exact absurd h' hbx
        · exact h'
    · simp only [pyRemove, if_neg hyx]
      constructor
      · intro hb
        rcases List.mem_cons.mp hb with h' | h'
        · exact ⟨h' ▸ List.mem_cons_self _ _, h' ▸ hyx⟩
        · have hh := (ih h.2 b).mp h'
          exact ⟨List.mem_cons_of_mem _ hh.1, hh.2⟩
      · rintro ⟨hb, hbx⟩
        rcases List.mem_cons.mp hb with h' | h'
        · exact h' ▸ List.mem_cons_self _ _
        · exact List.mem_cons_of_mem _ ((ih h.2 b).mpr ⟨h', hbx⟩)

theorem foldRemove_mem : ∀ (rem l : List Pin), l.Nodup →
    ∀ b, (b ∈ rem.foldl (fun acc x => pyRemove x acc) l ↔ b ∈ l ∧ b ∉ rem) := by
  intro rem
  induction rem with
  | nil =>
    intro l _ b
    simp
  | cons x rs ih =>
    intro l hl b
    rw [List.foldl_cons]
    have h1 := ih (pyRemove x l) (List.Nodup.sublist (pyRemove_sublist x l) hl) b
    rw [h1, pyRemove_mem x hl b]
    simp only [List.mem_cons]
    tauto

theorem pressedUpdate_mem (pressed raw : List Pin) (hp : pressed.Nodup) (hr : raw.Nodup) :
    ∀ b,
      (b ∈ (if pressed.filter (fun x => decide (x ∉ raw)) ≠ [] then
          (pressed.filter (fun x => decide (x ∉ raw))).foldl (fun l x => pyRemove x l)
            (if raw.filter (fun x => decide (x ∉ pressed)) ≠ [] then
              pressed ++ raw.filter (fun x => decide (x ∉ pressed)) else pressed)
        else
          (if raw.filter (fun x => decide (x ∉ pressed)) ≠ [] then
            pressed ++ raw.filter (fun x => decide (x ∉ pressed)) else pressed)) ↔
      b ∈ raw) := by
  intro b
  have hfd_n : (raw.filter (fun x => decide (x ∉ pressed))).Nodup := hr.filter _
  have happ : (pressed ++ raw.filter (fun x => decide (x ∉ pressed))).Nodup := by
    rw [List.nodup_append]
    refine ⟨hp, hfd_n, ?_⟩
    intro a ha haf
    rw [List.mem_filter] at haf
    exact absurd ha (by simpa using haf.2)
  have hP1 : (if raw.filter (fun x => decide (x ∉ pressed)) ≠ [] then
      pressed ++ raw.filter (fun x => decide (x ∉ pressed)) else pressed) =
      pressed ++ raw.filter (fun x => decide (x ∉ pressed)) := by
    by_cases h0 : raw.filter (fun x => decide (x ∉ pressed)) = []
    · rw [if_neg (fun hc => hc h0), h0, List.append_nil]
    · rw [if_pos h0]
  rw [hP1]
  have hP2 : (if pressed.filter (fun x => decide (x ∉ raw)) ≠ [] then
      (pressed.filter (fun x => decide (x ∉ raw))).foldl (fun l x => pyRemove x l)
        (pressed ++ raw.filter (fun x => decide (x ∉ pressed)))
      else pressed ++ raw.filter (fun x => decide (x ∉ pressed))) =
      (pressed.filter (fun x => decide (x ∉ raw))).foldl (fun l x => pyRemove x l)
        (pressed ++ raw.filter (fun x => decide (x ∉ pressed))) := by
    by_cases h0 : pressed.filter (fun x => decide (x ∉ raw)) = []
    · rw [if_neg (fun hc => hc h0), h0]
      rfl
    · rw [if_pos h0]
  rw [hP2]
  rw [foldRemove_mem _ _ happ b]
  simp only [List.mem_append, List.mem_filter, decide_eq_true_eq]
  tauto

/-- C6: one polling tick of the edge detector.  When the raw sample
differs from the previous raw sample the tick only settles the debounce
state: the previous sample is updated, the held set is unchanged, and no
events are produced.  When the raw sample equals the previous raw sample
but differs (as a set) from the held set, exactly one event pair is
emitted with `fresh_down` the newly-high pins and `fresh_up` the
newly-low pins, and the held set becomes the raw sample. -/
theorem edge_detector_tick (buttons : List Pin) (level : Pin → Bool) (g : GState)
    (hb : buttons.Nodup) (hp : g.pressed.Nodup) :
    (buttons.filter level ≠ g.down →
      gamepadCall buttons level g = (⟨buttons.filter level, g.pressed⟩, none)) ∧
    (buttons.filter level = g.down →
      ¬(∀ b, b ∈ buttons.filter level ↔ b ∈ g.pressed) →
      ∃ fd fu, (gamepadCall buttons level g).2 = some (fd, fu) ∧
        (∀ b, b ∈ fd ↔ b ∈ buttons.filter level ∧ b ∉ g.pressed) ∧
        (∀ b, b ∈ fu ↔ b ∈ g.pressed ∧ b ∉ buttons.filter level) ∧
        (gamepadCall buttons level g).1.down = buttons.filter level ∧
        (∀ b, b ∈ (gamepadCall buttons level g).1.pressed ↔ b ∈ buttons.filter level)) := by
  constructor
  · intro hne
    simp only [gamepadCall]
    rw [if_pos hne]
  · intro hEq hne
    have h1 : ¬(buttons.filter level ≠ g.down) := fun hc => hc hEq
    have hnot : ¬((buttons.filter level).filter (fun b => decide (b ∉ g.pressed)) = [] ∧
        g.pressed.filter (fun b => decide (b ∉ buttons.filter level)) = []) := by
      rintro ⟨hd0, hu0⟩
      apply hne
      intro b
      constructor
      · intro hbr
        by_contra hbp
        have hmem : b ∈ (buttons.filter level).filter (fun x => decide (x ∉ g.pressed)) := by
          rw [List.mem_filter]
          exact ⟨hbr, by simpa using hbp⟩
        rw [hd0] at hmem
        exact absurd hmem (List.not_mem_nil b)
      · intro hbp
        by_contra hbr
        have hmem : b ∈ g.pressed.filter (fun x => decide (x ∉ buttons.filter level)) := by
          rw [List.mem_filter]
          refine ⟨hbp, ?_⟩
          simp only [decide_eq_true_eq]
          exact hbr
        rw [hu0] at hmem
        exact absurd hmem (List.not_mem_nil b)
    refine ⟨(buttons.filter level).filter (fun b => decide (b ∉ g.pressed)),
            g.pressed.filter (fun b => decide (b ∉ buttons.filter level)),
            ?_, ?_, ?_, ?_, ?_⟩
    · simp only [gamepadCall]
      rw [if_neg h1, if_neg hnot]
    · intro b
      simp only [List.mem_filter, decide_eq_true_eq]
    · intro b
      simp only [List.mem_filter, decide_eq_true_eq]
    · simp only [gamepadCall]
      rw [if_neg h1, if_neg hnot]
    · intro b
      simp only [gamepadCall]
      rw [if_neg h1, if_neg hnot]
      dsimp only
      exact pressedUpdate_mem g.pressed (buttons.filter level) hp (hb.filter level) b

/-- C6 witness: first a settling tick (raw sample differs from the
previous one), then a stable tick that presses pin 0. -/
theorem edge_detector_tick_witness :
    gamepadCall [0, 1] (fun b => decide (b = 0)) ⟨[], []⟩ = (⟨[0], []⟩, none) ∧
    (gamepadCall [0, 1] (fun b => decide (b = 0)) ⟨[0], []⟩).1.down =
      List.filter (fun b => decide (b = 0)) [0, 1] := by
  constructor
  · exact (edge_detector_tick [0, 1] (fun b => decide (b = 0)) ⟨[], []⟩
      (by decide) (by decide)).1 (by decide)
  · obtain ⟨fd, fu, hh⟩ :=
      (edge_detector_tick [0, 1] (fun b => decide (b = 0)) ⟨[0], []⟩
        (by decide) (by decide)).2 (by decide)
        (fun hAll => by
          have h0 : (0 : ℕ) ∈ List.filter (fun b => decide (b = 0)) [0, 1] := by decide
          exact absurd ((hAll 0).mp h0) (List.not_mem_nil 0))
    exact hh.2.2.2.1

end CPGame
